import Mathlib

/-!
Shallow embedding of the brand-matching core of the
processing_dialogue_transcripts repository:
  - preprocess_text and get_ngrams from report/scripts/utils.py
  - build_synonym_index and match_brands_in_dialog from
    report/scripts/02_match_synonyms.py
together with theorems settling the spec claims about them.
-/

set_option autoImplicit false

namespace BrandMatch

/-- Membership in string.punctuation, the Python ASCII punctuation set:
code points 33-47, 58-64, 91-96 and 123-126. -/
def isPyPunct (c : Char) : Bool :=
  (33 ≤ c.toNat && c.toNat ≤ 47) || (58 ≤ c.toNat && c.toNat ≤ 64) ||
    (91 ≤ c.toNat && c.toNat ≤ 96) || (123 ≤ c.toNat && c.toNat ≤ 126)

/-- One-character lowercasing as Python str.lower acts on the character
classes this repository feeds it: ASCII letters and the basic Cyrillic
block (code points 1040-1071 map to 1072-1103, and 1025 maps to 1105).
Every other character is returned unchanged. -/
def pyLowerChar (c : Char) : Char :=
  if 65 ≤ c.toNat && c.toNat ≤ 90 then Char.ofNat (c.toNat + 32)
  else if 1040 ≤ c.toNat && c.toNat ≤ 1071 then Char.ofNat (c.toNat + 32)
  else if c.toNat = 1025 then Char.ofNat 1105
  else c

/-- preprocess_text from utils.py: delete every string.punctuation
character via str.translate, then lowercase the result. -/
def preprocess_text (text : String) : String :=
  String.mk ((text.data.filter (fun c => !(isPyPunct c))).map pyLowerChar)

/-- Helper for pySplit: scan the characters, accumulating the current
token in reverse; whitespace closes the token. -/
def pySplitAux : List Char → List Char → List String
  | [], acc => if acc.isEmpty then [] else [String.mk acc.reverse]
  | c :: cs, acc =>
    if c.isWhitespace then
      if acc.isEmpty then pySplitAux cs []
      else String.mk acc.reverse :: pySplitAux cs []
    else pySplitAux cs (c :: acc)

/-- Python str.split with no argument: split on runs of whitespace,
producing no empty tokens. -/
def pySplit (s : String) : List String :=
  pySplitAux s.data []

/-- Drop leading whitespace characters. -/
def dropLeadingWS : List Char → List Char
  | [] => []
  | c :: cs => if c.isWhitespace then dropLeadingWS cs else c :: cs

/-- Python str.strip with no argument: remove leading and trailing
whitespace. -/
def pyStrip (s : String) : String :=
  String.mk (dropLeadingWS (dropLeadingWS s.data).reverse).reverse

/-- Python str.join with a single-space separator. -/
def joinWords (ws : List String) : String :=
  String.intercalate " " ws

/-- Inner loop of get_ngrams at one start position: the n-grams of length
1 up to min max_n (number of remaining words), in increasing length. -/
def ngramsAt (suffix : List String) (maxN : Nat) : List String :=
  (List.range (min maxN suffix.length)).map (fun k => joinWords (suffix.take (k + 1)))

/-- get_ngrams from utils.py, recorded in generation order: outer loop
over start position, inner loop over increasing n-gram length. The
Python function accumulates these strings into a set; this list is the
generation sequence and the set is its deduplication. -/
def get_ngrams_list : List String → Nat → List String
  | [], _ => []
  | w :: ws, maxN => ngramsAt (w :: ws) maxN ++ get_ngrams_list ws maxN

/-- Helper for dedupFirst, carrying the set of strings already seen. -/
def dedupFirstAux : List String → List String → List String
  | [], _ => []
  | x :: xs, seen =>
    if x ∈ seen then dedupFirstAux xs seen else x :: dedupFirstAux xs (x :: seen)

/-- Deduplication keeping first occurrences: the distinct elements of l
in the order in which they first appear. This is the membership content
of the Python set built by get_ngrams; the order in which CPython
iterates that set is unspecified (hash-dependent). -/
def dedupFirst (l : List String) : List String :=
  dedupFirstAux l []

/-- The inverted index synonym_index: an insertion-ordered association
list from canonical phrase to the brands claiming it (Python defaultdict
of set; each brand set is kept as a duplicate-free list). -/
abbrev SynIndex := List (String × List String)

/-- Index probe: the brand set of a key, empty when the key is absent
(the matcher guards with a membership test, so absence and empty set
behave identically). -/
def lookupIndex (idx : SynIndex) (k : String) : List String :=
  match idx.find? (fun p => p.1 == k) with
  | some p => p.2
  | none => []

/-- synonym_index[k].add b on the association-list representation. -/
def addToIndex : SynIndex → String → String → SynIndex
  | [], k, b => [(k, [b])]
  | (k0, bs) :: rest, k, b =>
    if k0 = k then (k0, if b ∈ bs then bs else bs ++ [b]) :: rest
    else (k0, bs) :: addToIndex rest k b

/-- Dictionary assignment d[k] = v on an insertion-ordered association
list (used for brand_original_form). -/
def setAssoc : List (String × String) → String → String → List (String × String)
  | [], k, v => [(k, v)]
  | (k0, v0) :: rest, k, v =>
    if k0 = k then (k0, v) :: rest else (k0, v0) :: setAssoc rest k v

/-- The first element of a vocabulary record's response.items list, as
build_synonym_index reads it: the original name and the three variant
lists (each .get defaults a missing field to the empty value). -/
structure BrandData where
  original : String
  exact_variants : List String
  phonetic_variants : List String
  colloquial_variants : List String

/-- A vocabulary record as build_synonym_index consumes it: status (None
when the key is absent), the brand identifier original_brand, and the
response items list (response and items default to empty when absent). -/
structure SynonymRecord where
  status : Option String
  original_brand : String
  items : List BrandData

/-- The accumulated result of build_synonym_index: the inverted index,
the running maximum word count over indexed phrases, and the
brand_original_form dictionary. -/
structure BuildState where
  synonym_index : SynIndex
  max_words : Nat
  brand_original_form : List (String × String)

/-- The body of the inner variant loop of build_synonym_index, applied
identically to every element of the exact, phonetic and colloquial
variant lists: strip, require raw length > 3, normalize, require
normalized nonempty and of length > 3, then index under the brand. -/
def stepVariant (brand_name : String) (st : BuildState) (var : String) : BuildState :=
  let v := pyStrip var
  if v ≠ "" ∧ 3 < v.length then
    let processed := preprocess_text v
    if processed ≠ "" ∧ 3 < processed.length then
      { synonym_index := addToIndex st.synonym_index processed brand_name,
        max_words := max st.max_words (pySplit processed).length,
        brand_original_form := st.brand_original_form }
    else st
  else st

/-- The original-name path of build_synonym_index: strip, require
nonempty, normalize, require nonempty, then index under the brand and
record the brand's original form. No length filter is applied here. -/
def stepOriginal (brand_name : String) (st : BuildState) (brand_data : BrandData) : BuildState :=
  let orig := pyStrip brand_data.original
  if orig ≠ "" then
    let processed := preprocess_text orig
    if processed ≠ "" then
      { synonym_index := addToIndex st.synonym_index processed brand_name,
        max_words := max st.max_words (pySplit processed).length,
        brand_original_form := setAssoc st.brand_original_form brand_name processed }
    else st
  else st

/-- Processing of one successful record's first items element: the
original-name path followed by the three variant loops in order. -/
def processItems (brand_name : String) (st : BuildState) (brand_data : BrandData) : BuildState :=
  let st1 := stepOriginal brand_name st brand_data
  (brand_data.exact_variants ++ brand_data.phonetic_variants ++
    brand_data.colloquial_variants).foldl (stepVariant brand_name) st1

/-- One iteration of the outer loop of build_synonym_index: skip records
whose status is not success, whose brand identifier has length at most
3, or whose items list is empty; otherwise process items[0]. -/
def processRecord (st : BuildState) (item : SynonymRecord) : BuildState :=
  if item.status ≠ some "success" then st
  else if item.original_brand.length ≤ 3 then st
  else
    match item.items with
    | [] => st
    | brand_data :: _ => processItems item.original_brand st brand_data

/-- The initial state: empty defaultdict, max_words = 0, empty dict. -/
def emptyBuildState : BuildState :=
  ⟨[], 0, []⟩

/-- build_synonym_index from 02_match_synonyms.py. -/
def build_synonym_index (synonyms_data : List SynonymRecord) : BuildState :=
  synonyms_data.foldl processRecord emptyBuildState

/-- The found-dictionary update of the matcher inner loop: record
(brand, ngram) only when the brand is not yet present. -/
def addFound (found : List (String × String)) (g brand : String) : List (String × String) :=
  if brand ∈ found.map Prod.fst then found else found ++ [(brand, g)]

/-- Processing of one n-gram: iterate the brand set of the matched key
(no-op when the key is absent, matching the membership guard). -/
def matchFold (idx : SynIndex) (found : List (String × String)) (g : String) :
    List (String × String) :=
  (lookupIndex idx g).foldl (fun f brand => addFound f g brand) found

/-- The matcher loop of match_brands_in_dialog, parameterized by the
sequence in which the n-gram set is iterated. CPython iterates a set of
strings in an unspecified hash-dependent order, so every enumeration of
the distinct n-grams is an admissible iteration order. -/
def matchWithOrder (idx : SynIndex) (order : List String) : List (String × String) :=
  order.foldl (matchFold idx) []

/-- match_brands_in_dialog from 02_match_synonyms.py, with the n-gram
set iterated in first-generation order (one admissible iteration order;
see matchWithOrder for the general form). The brand_original_form
argument is accepted and never used, exactly as in the source. -/
def match_brands_in_dialog (text : String) (synonym_index : SynIndex) (max_words : Nat)
    (brand_original_form : List (String × String)) : List (String × String) :=
  let text_processed := preprocess_text text
  let words := pySplit text_processed
  let ngrams := dedupFirst (get_ngrams_list words max_words)
  matchWithOrder synonym_index ngrams

/-- A vocabulary record as parsed JSON delivers it to build_synonym_index:
the accesses Python performs with .get are total, while the subscript
item["original_brand"] raises KeyError when the key is absent. -/
structure RawRecord where
  status : Option String
  original_brand : Option String
  items : List BrandData

/-- One iteration of the outer loop with the two fallible operations of
the source made explicit: the subscript item["original_brand"] (KeyError
when absent) and the subscript items[0] (IndexError on an empty list,
guarded by the emptiness test just before it). -/
def processRecordE (st : BuildState) (item : RawRecord) : Except String BuildState :=
  if item.status ≠ some "success" then .ok st
  else
    match item.original_brand with
    | none => .error "KeyError: original_brand"
    | some brand_name =>
      if brand_name.length ≤ 3 then .ok st
      else if item.items.isEmpty then .ok st
      else
        match item.items.head? with
        | none => .error "IndexError: list index out of range"
        | some brand_data => .ok (processItems brand_name st brand_data)

/-- build_synonym_index over raw records, propagating the fallible
subscripts. -/
def build_synonym_indexE (data : List RawRecord) : Except String BuildState :=
  data.foldlM processRecordE emptyBuildState

/-- Injection of the declared input domain (records that do carry a
brand identifier) into raw records. -/
def SynonymRecord.toRaw (r : SynonymRecord) : RawRecord :=
  ⟨r.status, some r.original_brand, r.items⟩

/-- Processing of one n-gram with the dictionary subscript
synonym_index[ngram] made explicit as a fallible operation, guarded as
in the source by the membership test. -/
def matchFoldE (idx : SynIndex) (found : List (String × String)) (g : String) :
    Except String (List (String × String)) :=
  if (idx.find? (fun p => p.1 == g)).isSome then
    match idx.find? (fun p => p.1 == g) with
    | none => .error "KeyError"
    | some p => .ok (p.2.foldl (fun f brand => addFound f g brand) found)
  else .ok found

/-- match_brands_in_dialog with its fallible subscript propagated. -/
def match_brands_in_dialogE (text : String) (synonym_index : SynIndex) (max_words : Nat)
    (brand_original_form : List (String × String)) :
    Except String (List (String × String)) :=
  let text_processed := preprocess_text text
  let words := pySplit text_processed
  let ngrams := dedupFirst (get_ngrams_list words max_words)
  ngrams.foldlM (matchFoldE synonym_index) []

/-- The vocabulary of the multi-word phrase scenario: brand
Vse Instrumenty with the two-word original phrase. -/
def vocabVI : List SynonymRecord :=
  [⟨some "success", "Vse Instrumenty", [⟨"все инструменты", [], [], []⟩]⟩]

/-- The vocabulary of the matcher recall scenario: brand Ozon with
original Озон and exact variant ozon.ru. -/
def vocabOzon : List SynonymRecord :=
  [⟨some "success", "Ozon", [⟨"Озон", ["ozon.ru"], [], []⟩]⟩]

/-- A successful record whose original name has raw length 2: the
source's original-name path indexes it with no length filter. -/
def vocabIP : List SynonymRecord :=
  [⟨some "success", "Brand", [⟨"ИП", [], [], []⟩]⟩]

/-- An index in which a one-word phrase starting at word position 1 and
a two-word phrase starting at word position 0 both resolve to the same
brand X. -/
def idxC1 : SynIndex :=
  [("мыла", ["X"]), ("мама мыла", ["X"])]

/-- An admissible iteration order of the n-gram set of the dialogue
"мама мыла раму" (with max_words = 2) that enumerates the later-starting
phrase "мыла" before the leftmost-starting phrase "мама мыла". -/
def badOrderC1 : List String :=
  ["мыла", "мама", "мама мыла", "мыла раму", "раму"]

/-- A record whose brand identifier has length 3, used to witness the
skip of short brand identifiers. -/
def recShortBrand : SynonymRecord :=
  ⟨some "success", "Abc", [⟨"longname", ["alsolong"], [], []⟩]⟩

/-- A record with an empty items list. -/
def recNoItems : SynonymRecord :=
  ⟨some "success", "BrandA", []⟩

/-- Two records agreeing on status, brand identifier and the first items
element, and differing in the items tail. -/
def recItemsA : SynonymRecord :=
  ⟨some "success", "BrandB", [⟨"первый", [], [], []⟩]⟩

/-- See recItemsA: same head, different tail. -/
def recItemsB : SynonymRecord :=
  ⟨some "success", "BrandB", [⟨"первый", [], [], []⟩, ⟨"второй", ["хвост игнорируется"], [], []⟩]⟩

/-- Invariant of index construction: every brand stored in a value set
of the index has identifier length greater than 3 (records with shorter
identifiers are skipped before they can contribute). -/
def BrandsLong (st : BuildState) : Prop :=
  ∀ p ∈ st.synonym_index, ∀ b ∈ p.2, 3 < b.length

/-! ## Character-level lemmas about the normalizer -/

theorem toNat_ofNat_of_lt {n : Nat} (h : n < 55296) : (Char.ofNat n).toNat = n := by
  have hv : n.isValidChar := Or.inl h
  rw [Char.ofNat, dif_pos hv]
  simp [Char.ofNatAux, Char.toNat, UInt32.toNat, BitVec.toNat_ofNatLt]

theorem pyLowerChar_eq_self {c : Char} (h1 : ¬(65 ≤ c.toNat ∧ c.toNat ≤ 90))
    (h2 : ¬(1040 ≤ c.toNat ∧ c.toNat ≤ 1071)) (h3 : c.toNat ≠ 1025) :
    pyLowerChar c = c := by
  unfold pyLowerChar
  rw [if_neg (by simp only [Bool.and_eq_true, decide_eq_true_eq]; exact h1)]
  rw [if_neg (by simp only [Bool.and_eq_true, decide_eq_true_eq]; exact h2)]
  rw [if_neg h3]

theorem pyLowerChar_upperAscii {c : Char} (h : 65 ≤ c.toNat ∧ c.toNat ≤ 90) :
    pyLowerChar c = Char.ofNat (c.toNat + 32) := by
  unfold pyLowerChar
  rw [if_pos (by simp only [Bool.and_eq_true, decide_eq_true_eq]; exact h)]

theorem pyLowerChar_upperCyrillic {c : Char} (h : 1040 ≤ c.toNat ∧ c.toNat ≤ 1071) :
    pyLowerChar c = Char.ofNat (c.toNat + 32) := by
  unfold pyLowerChar
  rw [if_neg (by simp only [Bool.and_eq_true, decide_eq_true_eq]; omega)]
  rw [if_pos (by simp only [Bool.and_eq_true, decide_eq_true_eq]; exact h)]

theorem pyLowerChar_yo {c : Char} (h : c.toNat = 1025) : pyLowerChar c = Char.ofNat 1105 := by
  unfold pyLowerChar
  rw [if_neg (by simp only [Bool.and_eq_true, decide_eq_true_eq]; omega)]
  rw [if_neg (by simp only [Bool.and_eq_true, decide_eq_true_eq]; omega)]
  rw [if_pos h]

theorem isPyPunct_eq_false {c : Char}
    (h : (97 ≤ c.toNat ∧ c.toNat ≤ 122) ∨ 127 ≤ c.toNat) : isPyPunct c = false := by
  unfold isPyPunct
  simp only [Bool.or_eq_false_iff, Bool.and_eq_false_iff, decide_eq_false_iff_not]
  omega

theorem pyLowerChar_idem (c : Char) : pyLowerChar (pyLowerChar c) = pyLowerChar c := by
  by_cases h1 : 65 ≤ c.toNat ∧ c.toNat ≤ 90
  · rw [pyLowerChar_upperAscii h1]
    have ht : (Char.ofNat (c.toNat + 32)).toNat = c.toNat + 32 := toNat_ofNat_of_lt (by omega)
    exact pyLowerChar_eq_self (by omega) (by omega) (by omega)
  · by_cases h2 : 1040 ≤ c.toNat ∧ c.toNat ≤ 1071
    · rw [pyLowerChar_upperCyrillic h2]
      have ht : (Char.ofNat (c.toNat + 32)).toNat = c.toNat + 32 := toNat_ofNat_of_lt (by omega)
      exact pyLowerChar_eq_self (by omega) (by omega) (by omega)
    · by_cases h3 : c.toNat = 1025
      · rw [pyLowerChar_yo h3]
        have ht : (Char.ofNat 1105).toNat = 1105 := toNat_ofNat_of_lt (by omega)
        exact pyLowerChar_eq_self (by omega) (by omega) (by omega)
      · rw [pyLowerChar_eq_self h1 h2 h3, pyLowerChar_eq_self h1 h2 h3]

theorem isPyPunct_pyLowerChar (c : Char) : isPyPunct (pyLowerChar c) = isPyPunct c := by
  by_cases h1 : 65 ≤ c.toNat ∧ c.toNat ≤ 90
  · rw [pyLowerChar_upperAscii h1]
    have ht : (Char.ofNat (c.toNat + 32)).toNat = c.toNat + 32 := toNat_ofNat_of_lt (by omega)
    rw [isPyPunct_eq_false (by omega)]
    rw [show isPyPunct c = false from by unfold isPyPunct; simp only [Bool.or_eq_false_iff,
      Bool.and_eq_false_iff, decide_eq_false_iff_not]; omega]
  · by_cases h2 : 1040 ≤ c.toNat ∧ c.toNat ≤ 1071
    · rw [pyLowerChar_upperCyrillic h2]
      have ht : (Char.ofNat (c.toNat + 32)).toNat = c.toNat + 32 := toNat_ofNat_of_lt (by omega)
      rw [isPyPunct_eq_false (by omega), isPyPunct_eq_false (by omega)]
    · by_cases h3 : c.toNat = 1025
      · rw [pyLowerChar_yo h3]
        have ht : (Char.ofNat 1105).toNat = 1105 := toNat_ofNat_of_lt (by omega)
        rw [isPyPunct_eq_false (by omega), isPyPunct_eq_false (by omega)]
      · rw [pyLowerChar_eq_self h1 h2 h3]

theorem filter_map_lower (l : List Char) :
    (((l.filter fun c => !(isPyPunct c)).map pyLowerChar).filter
        (fun c => !(isPyPunct c))).map pyLowerChar
      = (l.filter (fun c => !(isPyPunct c))).map pyLowerChar := by
  rw [List.filter_map]
  have hcomp : ((fun c => !(isPyPunct c)) ∘ pyLowerChar) = fun c => !(isPyPunct c) := by
    funext c
    simp [Function.comp, isPyPunct_pyLowerChar]
  rw [hcomp, List.filter_filter]
  simp only [Bool.and_self]
  rw [List.map_map]
  have hLL : (pyLowerChar ∘ pyLowerChar) = pyLowerChar := funext pyLowerChar_idem
  rw [hLL]

/-- C3: normalize is idempotent: for every string s,
normalize (normalize s) = normalize s, where normalize is
preprocess_text, the composition of ASCII punctuation stripping and
lowercasing. -/
theorem c3_normalize_idempotent (s : String) :
    preprocess_text (preprocess_text s) = preprocess_text s := by
  unfold preprocess_text
  exact congrArg String.mk (filter_map_lower s.data)

/-! ## Characterization of the matcher loop -/

theorem addFound_mem (f : List (String × String)) (g brand b gg : String) :
    (b, gg) ∈ addFound f g brand ↔
      (b, gg) ∈ f ∨ (brand ∉ f.map Prod.fst ∧ b = brand ∧ gg = g) := by
  unfold addFound
  by_cases h : brand ∈ f.map Prod.fst
  · rw [if_pos h]
    simp [h]
  · rw [if_neg h]
    simp [h, List.mem_append, Prod.ext_iff]

theorem addFound_keys (f : List (String × String)) (g brand b : String) :
    b ∈ (addFound f g brand).map Prod.fst ↔ b ∈ f.map Prod.fst ∨ b = brand := by
  unfold addFound
  by_cases h : brand ∈ f.map Prod.fst
  · rw [if_pos h]
    constructor
    · exact fun hb => Or.inl hb
    · rintro (hb | rfl)
      · exact hb
      · exact h
  · rw [if_neg h]
    simp [List.map_append]

theorem foldlAdd_mem (g : String) (bs : List String) (f : List (String × String)) (b gg : String) :
    (b, gg) ∈ bs.foldl (fun f2 brand => addFound f2 g brand) f ↔
      (b, gg) ∈ f ∨ (b ∉ f.map Prod.fst ∧ b ∈ bs ∧ gg = g) := by
  induction bs generalizing f with
  | nil => simp
  | cons brand rest ih =>
    simp only [List.foldl_cons]
    rw [ih (addFound f g brand)]
    simp only [addFound_mem, addFound_keys, List.mem_cons]
    by_cases hbb : b = brand
    · subst hbb
      by_cases hk : b ∈ f.map Prod.fst <;> tauto
    · have hne : ¬(b = brand) := hbb
      tauto

theorem foldlAdd_keys (g : String) (bs : List String) (f : List (String × String)) (b : String) :
    b ∈ (bs.foldl (fun f2 brand => addFound f2 g brand) f).map Prod.fst ↔
      b ∈ f.map Prod.fst ∨ b ∈ bs := by
  induction bs generalizing f with
  | nil => simp
  | cons brand rest ih =>
    simp only [List.foldl_cons]
    rw [ih (addFound f g brand)]
    simp only [addFound_keys, List.mem_cons]
    tauto

theorem matchWithOrder_aux (idx : SynIndex) (order : List String)
    (f : List (String × String)) (b g : String) :
    (b, g) ∈ order.foldl (matchFold idx) f ↔
      (b, g) ∈ f ∨ (b ∉ f.map Prod.fst ∧
        order.find? (fun g2 => decide (b ∈ lookupIndex idx g2)) = some g) := by
  induction order generalizing f with
  | nil => simp
  | cons g0 gs ih =>
    simp only [List.foldl_cons]
    rw [ih (matchFold idx f g0)]
    unfold matchFold
    by_cases hb : b ∈ lookupIndex idx g0
    · rw [List.find?_cons_of_pos _ (by simpa using hb)]
      rw [foldlAdd_mem, foldlAdd_keys]
      simp only [Option.some.injEq]
      constructor
      · rintro ((hf | ⟨hk, _, rfl⟩) | ⟨hk, _⟩)
        · exact Or.inl hf
        · exact Or.inr ⟨hk, rfl⟩
        · exact absurd (Or.inr hb) hk
      · rintro (hf | ⟨hk, rfl⟩)
        · exact Or.inl (Or.inl hf)
        · exact Or.inl (Or.inr ⟨hk, hb, rfl⟩)
    · rw [List.find?_cons_of_neg _ (by simpa using hb)]
      rw [foldlAdd_mem, foldlAdd_keys]
      constructor
      · rintro ((hf | ⟨_, hmem, _⟩) | ⟨hk, hfind⟩)
        · exact Or.inl hf
        · exact absurd hmem hb
        · exact Or.inr ⟨fun hkf => hk (Or.inl hkf), hfind⟩
      · rintro (hf | ⟨hk, hfind⟩)
        · exact Or.inl (Or.inl hf)
        · exact Or.inr ⟨fun hkor => hkor.elim hk hb, hfind⟩

theorem matchWithOrder_mem_iff (idx : SynIndex) (order : List String) (b g : String) :
    (b, g) ∈ matchWithOrder idx order ↔
      order.find? (fun g2 => decide (b ∈ lookupIndex idx g2)) = some g := by
  unfold matchWithOrder
  rw [matchWithOrder_aux]
  simp

theorem addFound_keys_nodup (f : List (String × String)) (g brand : String)
    (h : (f.map Prod.fst).Nodup) : ((addFound f g brand).map Prod.fst).Nodup := by
  unfold addFound
  by_cases hb : brand ∈ f.map Prod.fst
  · rw [if_pos hb]
    exact h
  · rw [if_neg hb]
    rw [List.map_append]
    simp [List.nodup_append, h, hb]

theorem foldlAdd_keys_nodup (g : String) (bs : List String) (f : List (String × String))
    (h : (f.map Prod.fst).Nodup) :
    ((bs.foldl (fun f2 brand => addFound f2 g brand) f).map Prod.fst).Nodup := by
  induction bs generalizing f with
  | nil => exact h
  | cons brand rest ih =>
    simp only [List.foldl_cons]
    exact ih _ (addFound_keys_nodup f g brand h)

theorem matchWithOrder_keys_nodup (idx : SynIndex) (order : List String) :
    ((matchWithOrder idx order).map Prod.fst).Nodup := by
  unfold matchWithOrder
  have aux : ∀ (ord : List String) (f : List (String × String)),
      (f.map Prod.fst).Nodup → ((ord.foldl (matchFold idx) f).map Prod.fst).Nodup := by
    intro ord
    induction ord with
    | nil => exact fun f h => h
    | cons g0 gs ih =>
      intro f h
      simp only [List.foldl_cons]
      exact ih _ (foldlAdd_keys_nodup g0 _ f h)
  exact aux order [] (by simp)

/-- C4: for every dialogue text, index, max_words bound and
brand_original_form argument, the candidate list returned by
match_brands_in_dialog has pairwise distinct brand components: at most
one (brand, phrase) pair per brand, however many distinct n-grams of
the dialogue are index keys mapping to that brand. -/
theorem c4_one_candidate_per_brand (text : String) (synonym_index : SynIndex)
    (max_words : Nat) (brand_original_form : List (String × String)) :
    ((match_brands_in_dialog text synonym_index max_words brand_original_form).map
      Prod.fst).Nodup := by
  unfold match_brands_in_dialog
  exact matchWithOrder_keys_nodup _ _

theorem matchWithOrder_nil_index (order : List String) :
    matchWithOrder [] order = [] := by
  unfold matchWithOrder
  have aux : ∀ (ord : List String) (f : List (String × String)),
      ord.foldl (matchFold ([] : SynIndex)) f = f := by
    intro ord
    induction ord with
    | nil => exact fun f => rfl
    | cons g0 gs ih =>
      intro f
      simp only [List.foldl_cons]
      rw [show matchFold ([] : SynIndex) f g0 = f from rfl]
      exact ih f
  exact aux order []

/-- C5: the empty dialogue text yields an empty candidate set for every
index; the empty vocabulary yields the empty index with
max_phrase_words 0, and matching any dialogue against that empty index
yields an empty candidate set. -/
theorem c5_empty_inputs :
    (∀ (synonym_index : SynIndex) (max_words : Nat)
        (brand_original_form : List (String × String)),
      match_brands_in_dialog "" synonym_index max_words brand_original_form = []) ∧
    build_synonym_index [] = emptyBuildState ∧
    (∀ (text : String) (brand_original_form : List (String × String)),
      match_brands_in_dialog text (build_synonym_index []).synonym_index
        (build_synonym_index []).max_words brand_original_form = []) := by
  refine ⟨?_, rfl, ?_⟩
  · intro idx mw bof
    rfl
  · intro text bof
    unfold match_brands_in_dialog
    exact matchWithOrder_nil_index _

/-- C6: with the vocabulary mapping brand Vse Instrumenty to the
two-word phrase "все инструменты" indexed, matching the dialogue
"я заказал все инструменты вчера" with max_phrase_words = 2 returns
exactly the pair (Vse Instrumenty, все инструменты), while matching
with max_phrase_words = 1 returns a candidate set containing no pair
for that brand (the two-word phrase needs bigram generation). -/
theorem c6_multiword_scenario :
    match_brands_in_dialog "я заказал все инструменты вчера"
        (build_synonym_index vocabVI).synonym_index 2 []
      = [("Vse Instrumenty", "все инструменты")] ∧
    (∀ s : String, ("Vse Instrumenty", s) ∉
      match_brands_in_dialog "я заказал все инструменты вчера"
        (build_synonym_index vocabVI).synonym_index 1 []) := by
  constructor
  · rfl
  · intro s hs
    rw [show match_brands_in_dialog "я заказал все инструменты вчера"
        (build_synonym_index vocabVI).synonym_index 1 [] = [] from rfl] at hs
    exact List.not_mem_nil _ hs

/-- C7: with the Ozon vocabulary (original Озон, exact variant ozon.ru)
indexed and max_phrase_words = 1, matching the dialogue
"Закажи это на Озоне пожалуйста" returns no pair for Ozon: the dialogue
does tokenize to the inflected word "озоне", which is not equal to the
indexed phrase "озон", and matching is exact phrase equality. -/
theorem c7_no_stemming :
    "озоне" ∈ pySplit (preprocess_text "Закажи это на Озоне пожалуйста") ∧
    (∀ s : String, ("Ozon", s) ∉
      match_brands_in_dialog "Закажи это на Озоне пожалуйста"
        (build_synonym_index vocabOzon).synonym_index 1 []) := by
  constructor
  · rw [show pySplit (preprocess_text "Закажи это на Озоне пожалуйста")
        = ["закажи", "это", "на", "озоне", "пожалуйста"] from rfl]
    simp
  · intro s hs
    rw [show match_brands_in_dialog "Закажи это на Озоне пожалуйста"
        (build_synonym_index vocabOzon).synonym_index 1 [] = [] from rfl] at hs
    exact List.not_mem_nil _ hs

/-! ## Totality of the embedded operations -/

theorem processRecordE_toRaw (st : BuildState) (r : SynonymRecord) :
    processRecordE st r.toRaw = Except.ok (processRecord st r) := by
  unfold processRecordE processRecord SynonymRecord.toRaw
  dsimp only
  by_cases hs : r.status ≠ some "success"
  · rw [if_pos hs, if_pos hs]
  · rw [if_neg hs, if_neg hs]
    by_cases hl : r.original_brand.length ≤ 3
    · rw [if_pos hl, if_pos hl]
    · rw [if_neg hl, if_neg hl]
      cases r.items with
      | nil => rfl
      | cons bd rest => rfl

theorem matchFoldE_eq (idx : SynIndex) (f : List (String × String)) (g : String) :
    matchFoldE idx f g = Except.ok (matchFold idx f g) := by
  unfold matchFoldE matchFold lookupIndex
  cases hf : idx.find? (fun p => p.1 == g) with
  | none => simp [hf]
  | some p => simp [hf]

/-- C8: the embedded normalizer, index builder and matcher are total on
their declared domains. preprocess_text, pySplit, get_ngrams_list and
matchWithOrder are total functions by construction; the two fallible
operations of the source — the subscripts item["original_brand"] and
items[0] in build_synonym_index and synonym_index[ngram] in the matcher
— are modelled explicitly in build_synonym_indexE and
match_brands_in_dialogE, and on every input of the declared domain they
return ok with the value of the total embedding: the error branches are
unreachable. -/
theorem c8_totality :
    (∀ data : List SynonymRecord,
      build_synonym_indexE (data.map SynonymRecord.toRaw)
        = Except.ok (build_synonym_index data)) ∧
    (∀ (text : String) (synonym_index : SynIndex) (max_words : Nat)
        (brand_original_form : List (String × String)),
      match_brands_in_dialogE text synonym_index max_words brand_original_form
        = Except.ok (match_brands_in_dialog text synonym_index max_words
            brand_original_form)) := by
  constructor
  · intro data
    unfold build_synonym_indexE build_synonym_index
    have aux : ∀ (l : List SynonymRecord) (st : BuildState),
        (l.map SynonymRecord.toRaw).foldlM processRecordE st
          = Except.ok (l.foldl processRecord st) := by
      intro l
      induction l with
      | nil => intro st; rfl
      | cons r rest ih =>
        intro st
        simp only [List.map_cons, List.foldlM_cons, List.foldl_cons]
        rw [processRecordE_toRaw]
        exact ih st |> fun h => by simpa using congrArg (fun x => x) (ih (processRecord st r))
    exact aux data emptyBuildState
  · intro text idx mw bof
    unfold match_brands_in_dialogE match_brands_in_dialog matchWithOrder
    have aux : ∀ (ord : List String) (f : List (String × String)),
        ord.foldlM (matchFoldE idx) f = Except.ok (ord.foldl (matchFold idx) f) := by
      intro ord
      induction ord with
      | nil => intro f; rfl
      | cons g gs ih =>
        intro f
        simp only [List.foldlM_cons, List.foldl_cons]
        rw [matchFoldE_eq]
        simpa using ih (matchFold idx f g)
    exact aux _ []

/-! ## Skipping of short brand identifiers and the tail of items -/

theorem processRecord_skip_shortBrand (st : BuildState) (e : SynonymRecord)
    (h : e.original_brand.length ≤ 3) : processRecord st e = st := by
  unfold processRecord
  by_cases hs : e.status ≠ some "success"
  · rw [if_pos hs]
  · rw [if_neg hs, if_pos h]

theorem addToIndex_brands_long :
    ∀ (idx : SynIndex) (k brand : String),
      (∀ p ∈ idx, ∀ b ∈ p.2, 3 < b.length) → 3 < brand.length →
      ∀ p ∈ addToIndex idx k brand, ∀ b ∈ p.2, 3 < b.length := by
  intro idx
  induction idx with
  | nil =>
    intro k brand hidx hb p hp b hbmem
    simp only [addToIndex, List.mem_singleton] at hp
    subst hp
    simp only [List.mem_singleton] at hbmem
    subst hbmem
    exact hb
  | cons q rest ih =>
    obtain ⟨k0, bs⟩ := q
    intro k brand hidx hb p hp b hbmem
    unfold addToIndex at hp
    by_cases hk : k0 = k
    · rw [if_pos hk] at hp
      rcases List.mem_cons.mp hp with rfl | hrest
      · by_cases hbin : brand ∈ bs
        · rw [if_pos hbin] at hbmem
          exact hidx (k0, bs) (by simp) b hbmem
        · rw [if_neg hbin] at hbmem
          rcases List.mem_append.mp hbmem with hbs | hbl
          · exact hidx (k0, bs) (by simp) b hbs
          · simp only [List.mem_singleton] at hbl
            subst hbl
            exact hb
      · exact hidx p (List.mem_cons_of_mem _ hrest) b hbmem
    · rw [if_neg hk] at hp
      rcases List.mem_cons.mp hp with rfl | hrest
      · exact hidx (k0, bs) (by simp) b hbmem
      · exact ih k brand (fun p2 hp2 => hidx p2 (List.mem_cons_of_mem _ hp2)) hb p hrest b hbmem

theorem stepVariant_brands_long (brand_name : String) (st : BuildState) (var : String)
    (hst : BrandsLong st) (hb : 3 < brand_name.length) :
    BrandsLong (stepVariant brand_name st var) := by
  unfold stepVariant
  dsimp only
  split_ifs with h1 h2
  · intro p hp b hbmem
    exact addToIndex_brands_long st.synonym_index _ brand_name hst hb p hp b hbmem
  · exact hst
  · exact hst

theorem stepOriginal_brands_long (brand_name : String) (st : BuildState) (bd : BrandData)
    (hst : BrandsLong st) (hb : 3 < brand_name.length) :
    BrandsLong (stepOriginal brand_name st bd) := by
  unfold stepOriginal
  dsimp only
  split_ifs with h1 h2
  · intro p hp b hbmem
    exact addToIndex_brands_long st.synonym_index _ brand_name hst hb p hp b hbmem
  · exact hst
  · exact hst

theorem processItems_brands_long (brand_name : String) (st : BuildState) (bd : BrandData)
    (hst : BrandsLong st) (hb : 3 < brand_name.length) :
    BrandsLong (processItems brand_name st bd) := by
  unfold processItems
  have aux : ∀ (vs : List String) (st2 : BuildState), BrandsLong st2 →
      BrandsLong (vs.foldl (stepVariant brand_name) st2) := by
    intro vs
    induction vs with
    | nil => exact fun st2 h => h
    | cons v rest ih =>
      intro st2 h
      simp only [List.foldl_cons]
      exact ih _ (stepVariant_brands_long brand_name st2 v h hb)
  exact aux _ _ (stepOriginal_brands_long brand_name st bd hst hb)

theorem processRecord_brands_long (st : BuildState) (e : SynonymRecord)
    (hst : BrandsLong st) : BrandsLong (processRecord st e) := by
  unfold processRecord
  by_cases hs : e.status ≠ some "success"
  · rw [if_pos hs]
    exact hst
  · rw [if_neg hs]
    by_cases hl : e.original_brand.length ≤ 3
    · rw [if_pos hl]
      exact hst
    · rw [if_neg hl]
      cases e.items with
      | nil => exact hst
      | cons bd rest => exact processItems_brands_long _ st bd hst (by omega)

theorem build_brands_long (data : List SynonymRecord) :
    BrandsLong (build_synonym_index data) := by
  unfold build_synonym_index
  have aux : ∀ (l : List SynonymRecord) (st : BuildState), BrandsLong st →
      BrandsLong (l.foldl processRecord st) := by
    intro l
    induction l with
    | nil => exact fun st h => h
    | cons e rest ih =>
      intro st h
      simp only [List.foldl_cons]
      exact ih _ (processRecord_brands_long st e h)
  exact aux data emptyBuildState (by intro p hp; simp [emptyBuildState] at hp)

theorem lookupIndex_brands_long (idx : SynIndex)
    (hidx : ∀ p ∈ idx, ∀ b ∈ p.2, 3 < b.length) (g b : String)
    (hb : b ∈ lookupIndex idx g) : 3 < b.length := by
  unfold lookupIndex at hb
  cases hf : idx.find? (fun p => p.1 == g) with
  | none => rw [hf] at hb; exact absurd hb (List.not_mem_nil _)
  | some p =>
    rw [hf] at hb
    exact hidx p (List.mem_of_find?_eq_some hf) b hb

/-- C9: a vocabulary entry whose brand identifier has raw length at most
3 is skipped entirely by build_synonym_index — removing it from the
vocabulary leaves the built state unchanged, so none of its variants
contributes an index key — and consequently a brand identifier of length
at most 3 can never appear in any dialogue's candidate set, whatever
vocabulary the index was built from. -/
theorem c9_short_brand_skipped (pre : List SynonymRecord) (e : SynonymRecord)
    (post : List SynonymRecord) (h : e.original_brand.length ≤ 3) :
    build_synonym_index (pre ++ e :: post) = build_synonym_index (pre ++ post) ∧
    (∀ (data : List SynonymRecord) (text : String) (max_words : Nat)
        (brand_original_form : List (String × String)) (s : String),
      (e.original_brand, s) ∉ match_brands_in_dialog text
        (build_synonym_index data).synonym_index max_words brand_original_form) := by
  constructor
  · unfold build_synonym_index
    rw [List.foldl_append, List.foldl_append, List.foldl_cons,
      processRecord_skip_shortBrand _ e h]
  · intro data text mw bof hs
    intro hmem
    unfold match_brands_in_dialog at hmem
    rw [matchWithOrder_mem_iff] at hmem
    have hp := List.find?_some hmem
    simp only [decide_eq_true_eq] at hp
    have hlong := lookupIndex_brands_long _ (build_brands_long data) _ _ hp
    omega

/-- Witness for c9_short_brand_skipped: the record with brand identifier
Abc (length 3) contributes nothing to the index. -/
theorem c9_short_brand_skipped_witness :
    recShortBrand.original_brand.length ≤ 3 ∧
    build_synonym_index ([] ++ recShortBrand :: []) = build_synonym_index ([] ++ []) :=
  ⟨by decide, (c9_short_brand_skipped [] recShortBrand [] (by decide)).1⟩

/-- C10: build_synonym_index consults only the first element of a
record's items list: a record with an empty items list leaves the state
unchanged, and two records agreeing on status, brand identifier and the
first items element are processed identically whatever the tails of
their items lists contain. -/
theorem c10_only_first_item (st : BuildState) (e1 e2 : SynonymRecord) :
    (e1.items = [] → processRecord st e1 = st) ∧
    (e1.status = e2.status → e1.original_brand = e2.original_brand →
      e1.items.head? = e2.items.head? → processRecord st e1 = processRecord st e2) := by
  constructor
  · intro hnil
    unfold processRecord
    rw [hnil]
    by_cases hs : e1.status ≠ some "success"
    · rw [if_pos hs]
    · rw [if_neg hs]
      by_cases hl : e1.original_brand.length ≤ 3
      · rw [if_pos hl]
      · rw [if_neg hl]
  · intro hst hbr hhead
    unfold processRecord
    rw [hst, hbr]
    cases h1 : e1.items with
    | nil =>
      cases h2 : e2.items with
      | nil => rfl
      | cons y ys =>
        rw [h1, h2] at hhead
        simp at hhead
    | cons x xs =>
      cases h2 : e2.items with
      | nil =>
        rw [h1, h2] at hhead
        simp at hhead
      | cons y ys =>
        rw [h1, h2] at hhead
        simp only [List.head?_cons, Option.some.injEq] at hhead
        rw [hhead]

/-- Witness for c10_only_first_item: a record with empty items is a
no-op, and two records sharing the first items element but with
different tails are processed identically. -/
theorem c10_only_first_item_witness :
    processRecord emptyBuildState recNoItems = emptyBuildState ∧
    processRecord emptyBuildState recItemsA = processRecord emptyBuildState recItemsB :=
  ⟨(c10_only_first_item emptyBuildState recNoItems recNoItems).1 rfl,
   (c10_only_first_item emptyBuildState recItemsA recItemsB).2 rfl rfl rfl⟩

/-! ## The length filter and the original-name exemption -/

theorem preprocess_length_le (s : String) : (preprocess_text s).length ≤ s.length := by
  show ((s.data.filter (fun c => !(isPyPunct c))).map pyLowerChar).length ≤ s.data.length
  rw [List.length_map]
  exact List.length_filter_le _ _

/-- C2 counterexample: the claim that the raw-length filter is applied
identically to the brand's original name fails on the code. In the
vocabulary vocabIP the brand Brand has original name "ИП" of raw length
2 — at most 3 — yet after build_synonym_index the normalized form "ип"
is an index key mapping to Brand, because the original-name path of
build_synonym_index applies no length filter. -/
theorem c2_counterexample :
    ("ИП" : String).length = 2 ∧
    lookupIndex (build_synonym_index vocabIP).synonym_index "ип" = ["Brand"] :=
  ⟨rfl, rfl⟩

/-- C2 amended: the length filter (raw trimmed length > 3 and
normalized length > 3; the former is implied by the latter, since
normalization never lengthens a string) is applied identically to every
element of the exact, phonetic and colloquial variant lists — a variant
whose normalized trimmed form has length at most 3 leaves the build
state unchanged — but the brand's original name is exempt from the
length filter (see c2_counterexample). -/
theorem c2_variant_length_filter (brand_name : String) (st : BuildState) (var : String)
    (h : (preprocess_text (pyStrip var)).length ≤ 3) :
    stepVariant brand_name st var = st := by
  unfold stepVariant
  dsimp only
  by_cases h1 : pyStrip var ≠ "" ∧ 3 < (pyStrip var).length
  · rw [if_pos h1]
    have h2 : ¬(preprocess_text (pyStrip var) ≠ "" ∧
        3 < (preprocess_text (pyStrip var)).length) := by
      rintro ⟨_, hl⟩
      omega
    rw [if_neg h2]
  · rw [if_neg h1]

/-- Witness for c2_variant_length_filter: the two-character variant LG
is filtered out. -/
theorem c2_variant_length_filter_witness :
    (preprocess_text (pyStrip "LG")).length ≤ 3 ∧
    stepVariant "Brand" emptyBuildState "LG" = emptyBuildState :=
  ⟨by decide, c2_variant_length_filter "Brand" emptyBuildState "LG" (by decide)⟩

/-! ## The per-brand tie-break of the matcher -/

/-- C1 counterexample: the claim that the matcher retains, per brand,
the matched phrase with the leftmost start position (shortest first on
ties) fails on the code, because get_ngrams returns a Python set and
CPython iterates a set of strings in an unspecified hash-dependent
order. For the dialogue "мама мыла раму" and an index in which both
"мама мыла" (starting at word position 0) and "мыла" (starting at word
position 1) resolve to brand X, the iteration order badOrderC1 — a
permutation of the n-gram set, hence an admissible set iteration order —
makes the matcher retain ("X", "мыла") rather than the
leftmost-starting ("X", "мама мыла"). -/
theorem c1_counterexample :
    badOrderC1.Perm (dedupFirst (get_ngrams_list (pySplit (preprocess_text "мама мыла раму")) 2)) ∧
    matchWithOrder idxC1 badOrderC1 = [("X", "мыла")] ∧
    matchWithOrder idxC1 badOrderC1 ≠ [("X", "мама мыла")] := by
  refine ⟨by decide, rfl, by decide⟩

/-- C1 amended: for every brand, the matcher retains exactly the
first n-gram, in the order in which the n-gram set is iterated, whose
index entry contains that brand — one pair per brand. Which matched
phrase this is depends on the unspecified set iteration order; it is the
leftmost-start-then-shortest phrase when the set happens to be iterated
in generation order, but not in general (see c1_counterexample). -/
theorem c1_first_found_tiebreak (idx : SynIndex) (order : List String) (b g : String) :
    (b, g) ∈ matchWithOrder idx order ↔
      order.find? (fun g2 => decide (b ∈ lookupIndex idx g2)) = some g :=
  matchWithOrder_mem_iff idx order b g

end BrandMatch
